import Mathlib

/-!
Verification of the DevBase concurrent directory scanner (`engine/scanner.go`)
against its natural-language specification.

The scanner code is shallowly embedded:
* the hand-rolled string helpers (`splitLines`, `trimSpace`,
  `startsWithIgnoreSpace`, `indexByte`) and the git-config parser
  (`getGitRemoteURL`) become pure functions on `List Char` / `String`;
* the filesystem is a finite tree (`FsNode`), `os.Stat` becomes a lookup (or
  an abstract oracle where claims concern stat errors), and the walk
  (`filepath.WalkDir` plus the callback at scanner.go:44-60) becomes a pure
  recursion producing the enqueued candidate list and an optional walk error;
* the goroutine pool of `ScanDirectory` is modelled twice: as a sequential
  denotation of its data flow (`scanDirectory`), and as a small-step
  transition system (`Step`) over channel/worker states for the
  liveness/termination claim.
-/

namespace DevBase

/-! ### String helpers (scanner.go lines 168-219) -/

/-- The characters treated as space by `trimSpace` (scanner.go 184-197). -/
def isSpaceCh (c : Char) : Bool := c = ' ' || c = '\t' || c = '\r' || c = '\n'

/-- Accumulator loop of `splitLines` (scanner.go 169-182): a line is emitted at
each newline byte, and the final partial line is emitted only when nonempty. -/
def splitLinesAux : List Char → List Char → List (List Char)
  | [], acc => if acc = [] then [] else [acc.reverse]
  | c :: rest, acc =>
      if c = '\n' then acc.reverse :: splitLinesAux rest []
      else splitLinesAux rest (c :: acc)

/-- `splitLines` (scanner.go 169-182). -/
def splitLines (s : List Char) : List (List Char) := splitLinesAux s []

/-- `trimSpace` (scanner.go 184-197): strip spaces, tabs, CR and LF from both
ends. -/
def trimSpace (s : List Char) : List Char :=
  ((s.dropWhile isSpaceCh).reverse.dropWhile isSpaceCh).reverse

/-- The length-check-then-bytewise-compare loop of `startsWithIgnoreSpace`
(scanner.go 201-209). -/
def hasStart : List Char → List Char → Bool
  | _, [] => true
  | [], _ :: _ => false
  | c :: cs, p :: ps => c = p && hasStart cs ps

/-- `startsWithIgnoreSpace` (scanner.go 199-210): re-trim, then compare the
leading bytes against the pattern. -/
def startsWithIgnoreSpace (s pat : List Char) : Bool := hasStart (trimSpace s) pat

/-- `indexByte` (scanner.go 212-219); `none` models the Go return value -1. -/
def indexByte : List Char → Char → Option Nat
  | [], _ => none
  | c :: cs, t => if c = t then some 0 else (indexByte cs t).map (· + 1)

/-! ### The git-config parser (scanner.go lines 122-166) -/

def originHeader : List Char := "[remote \"origin\"]".toList

def urlKey : List Char := "url".toList

/-- Whether a trimmed line opens a section header (`len > 0 && s[0] == '['`,
scanner.go 150). -/
def isSectionStart : List Char → Bool
  | c :: _ => c = '['
  | [] => false

/-- The line loop of `getGitRemoteURL` (scanner.go 138-165), as a pure function
from the split lines and the `inOriginSection` flag to the URL; `[]` models the
Go return value `""` ("not found"). -/
def parseLines : List (List Char) → Bool → List Char
  | [], _ => []
  | line :: rest, inOrigin =>
      let trimmed := trimSpace line
      if trimmed = originHeader then parseLines rest true
      else if inOrigin ∧ isSectionStart trimmed then parseLines rest false
      else if inOrigin ∧ startsWithIgnoreSpace trimmed urlKey then
        match indexByte trimmed '=' with
        | some idx =>
            if idx + 1 < trimmed.length then trimSpace (trimmed.drop (idx + 1))
            else parseLines rest inOrigin
        | none => parseLines rest inOrigin
      else parseLines rest inOrigin

/-- Pure core of `getGitRemoteURL` (scanner.go 136-165): from the contents of a
`.git/config` file to the origin URL, the empty string meaning "not found". -/
def getGitRemoteURLPure (content : String) : String :=
  (parseLines (splitLines content.toList) false).asString

/-- Modelled from the spec, section 4.3 step 4 as the claim reads it: a line
matches only when its trimmed content starts with `url` followed (after
optional whitespace) by `=`. -/
def startsUrlEq (t : List Char) : Bool :=
  t.take 3 = urlKey && ((t.drop 3).dropWhile isSpaceCh).head? = some '='

/-- Modelled from the spec (claim C3's algorithm, section 4.3 as written):
inside the `[remote "origin"]` section, the first line whose trimmed content
starts with `url` followed by `=` yields everything after the first `=`,
whitespace-trimmed, immediately; end of file yields empty. -/
def specScanStrict : List (List Char) → Bool → List Char
  | [], _ => []
  | line :: rest, inO =>
      let t := trimSpace line
      if t = originHeader then specScanStrict rest true
      else if isSectionStart t then specScanStrict rest false
      else if inO ∧ startsUrlEq t then
        match indexByte t '=' with
        | some idx => trimSpace (t.drop (idx + 1))
        | none => []
      else specScanStrict rest inO

/-- The spec's parsing algorithm (claim C3) as a pure function on file
contents. -/
def specOriginURL (content : String) : String :=
  (specScanStrict (splitLines content.toList) false).asString

/-- The amended parsing algorithm: inside the origin section, the first line
whose trimmed content starts with the three characters `url` (whatever
follows) and contains an `=` before its last character yields everything after
the first `=`, whitespace-trimmed, immediately; a url-starting line without
such an `=` is skipped and scanning continues. -/
def specScanAmended : List (List Char) → Bool → List Char
  | [], _ => []
  | line :: rest, inO =>
      let t := trimSpace line
      if t = originHeader then specScanAmended rest true
      else if isSectionStart t then specScanAmended rest false
      else if inO ∧ t.take 3 = urlKey then
        match indexByte t '=' with
        | some idx =>
            if idx + 1 < t.length then trimSpace (t.drop (idx + 1))
            else specScanAmended rest inO
        | none => specScanAmended rest inO
      else specScanAmended rest inO

/-- The amended spec algorithm as a pure function on file contents. -/
def specOriginURLAmended (content : String) : String :=
  (specScanAmended (splitLines content.toList) false).asString

/-! ### Filesystem model

A finite tree of named entries. A directory carries a `readErr` flag that
models `os.ReadDir` failing on it (permission denied / I/O error), which is
the walk-level fault of scanner.go line 44-47. -/

mutual
inductive FsNode where
  | file (name : String) (content : String)
  | dir (name : String) (readErr : Bool) (children : FsList)
inductive FsList where
  | nil
  | cons (head : FsNode) (tail : FsList)
end

def FsNode.name : FsNode → String
  | .file n _ => n
  | .dir n _ _ => n

def FsNode.isDir : FsNode → Bool
  | .file _ _ => false
  | .dir _ _ _ => true

-- Navigate a segment path below a node (files have no entries).
mutual
def findNode : FsNode → List String → Option FsNode
  | n, [] => some n
  | .file _ _, _ :: _ => none
  | .dir _ _ cs, s :: rest => findInList cs s rest
def findInList : FsList → String → List String → Option FsNode
  | .nil, _, _ => none
  | .cons c cs, s, rest =>
      if FsNode.name c = s then findNode c rest else findInList cs s rest
end

/-- Navigate a full segment path whose first segment is the root's own name
(candidate paths produced by the walk have this shape). -/
def findFull (t : FsNode) : List String → Option FsNode
  | [] => none
  | r :: rest => if FsNode.name t = r then findNode t rest else none

/-- Result of one `os.Stat` call as `fileExists` (scanner.go 109-119)
distinguishes it: success, `fs.ErrNotExist`, or any other error. -/
inductive StatRes where
  | found
  | notFound
  | statError
deriving DecidableEq

/-- `os.Stat` against the modelled tree: an entry of either kind at the path
exists; a real filesystem lookup on an intact tree yields no stat error. -/
def statOfTree (t : FsNode) : List String → StatRes
  | [] => .notFound
  | r :: rest =>
      if FsNode.name t = r then
        (if (findNode t rest).isSome then .found else .notFound)
      else .notFound

/-- `fileExists` (scanner.go 109-119): stat success means the entry exists
(whatever its kind), `ErrNotExist` means it does not, and any other stat error
is returned to the caller. -/
def fileExists : StatRes → Except Unit Bool
  | .found => .ok true
  | .notFound => .ok false
  | .statError => .error ()

/-! ### The tree walk (scanner.go lines 34-60)

`filepath.WalkDir` with the callback of scanner.go 44-60: directories only,
prune on the ignore set via `SkipDir`, enqueue every other directory
(pre-order: a directory before its children), and propagate any traversal
error. The pair returned is (candidate paths enqueued, optional walk error);
on a `ReadDir` error the erroring directory itself was already enqueued by the
callback's first invocation before the error is reported. -/

/-- The ignore set of scanner.go lines 35-42. -/
def ignoreSet : List String := ["node_modules", "dist", "build", "vendor", ".next", ".vite"]

inductive WalkError where
  | readDirError (path : List String)
deriving DecidableEq

mutual
def walkNode (p : List String) : FsNode → List (List String) × Option WalkError
  | .file _ _ => ([], none)
  | .dir n readErr cs =>
      if n ∈ ignoreSet then ([], none)
      else if readErr then ([p ++ [n]], some (.readDirError (p ++ [n])))
      else
        let r := walkList (p ++ [n]) cs
        ((p ++ [n]) :: r.1, r.2)
def walkList (p : List String) : FsList → List (List String) × Option WalkError
  | .nil => ([], none)
  | .cons c cs =>
      let rc := walkNode p c
      match rc.2 with
      | some e => (rc.1, some e)
      | none =>
          let rest := walkList p cs
          (rc.1 ++ rest.1, rest.2)
end

/-! ### The inspector (scanner.go lines 84-107) -/

/-- Path segments rendered as the string `filepath.Join` builds during the
walk (separator-free segment names joined by `/`). -/
def pathString : List String → String
  | [] => ""
  | [s] => s
  | s :: rest => s ++ "/" ++ pathString rest

/-- Strip trailing `/` separators (first loop of Go `filepath.Base`). -/
def stripTrailingSep (s : List Char) : List Char :=
  (s.reverse.dropWhile (· = '/')).reverse

/-- The component after the last `/` (the `lastIndexOf` step of `Base`). -/
def lastComponent (s : List Char) : List Char :=
  (s.reverse.takeWhile (· ≠ '/')).reverse

/-- `filepath.Base` (Go path/filepath) for `/`-separated paths: empty input
gives `.`, trailing separators are stripped, the component after the last
separator is returned, and an all-separator path gives `/`. -/
def baseNameCh (s : List Char) : List Char :=
  if s = [] then ['.']
  else if lastComponent (stripTrailingSep s) = [] then ['/']
  else lastComponent (stripTrailingSep s)

def baseName (p : String) : String := (baseNameCh p.toList).asString

/-- The scanner-relevant fields of `models.Project` (models/project.go 10-21);
the DB-managed fields (ID, tags, gorm timestamps, soft-delete mark) are left
zero by the scanner and are omitted. Time is modelled as a `Nat` stamp. -/
structure Project where
  name : String
  path : String
  repoURL : String
  status : String
  lastOpened : Nat
deriving DecidableEq

/-- The marker list of scanner.go line 86, in its fixed order. -/
def markers : List String := ["package.json", "go.mod", ".git"]

/-- The `Project` literal built at scanner.go 91-101 for a matched directory. -/
def mkProject (git : List String → String) (now : Nat) (dir : List String) : Project :=
  { name := baseName (pathString dir)
    path := pathString dir
    repoURL := git dir
    status := "active"
    lastOpened := now }

/-- The marker loop of `inspectDirectory` (scanner.go 87-105) over an abstract
stat oracle `st` (what `os.Stat` answers at each path) and `git` (the value
`getGitRemoteURL` returns for a directory). -/
def inspectGo (st : List String → StatRes) (git : List String → String) (now : Nat)
    (dir : List String) : List String → Except Unit (Option Project)
  | [] => .ok none
  | m :: ms =>
      match fileExists (st (dir ++ [m])) with
      | .error e => .error e
      | .ok true => .ok (some (mkProject git now dir))
      | .ok false => inspectGo st git now dir ms

/-- `inspectDirectory` (scanner.go 85-107). -/
def inspectDirectory (st : List String → StatRes) (git : List String → String)
    (now : Nat) (dir : List String) : Except Unit (Option Project) :=
  inspectGo st git now dir markers

/-- `getGitRemoteURL` (scanner.go 122-166) against the modelled tree: parse
`<dir>/.git/config` when it is a file; a missing entry, or `os.ReadFile`
failing because the entry is a directory, yields the empty string. -/
def getGitRemoteURLFs (t : FsNode) (dir : List String) : String :=
  match findFull t (dir ++ [".git", "config"]) with
  | some (.file _ content) => getGitRemoteURLPure content
  | some (.dir _ _ _) => ""
  | none => ""

/-! ### The pool and the collector, sequential denotation (scanner.go 15-82) -/

/-- One worker-loop body (scanner.go 26-30): an inspection error or a
non-match emits nothing; a match emits the constructed record. -/
def workerEmit? (st : List String → StatRes) (git : List String → String) (now : Nat)
    (dir : List String) : Option Project :=
  match inspectDirectory st git now dir with
  | .ok (some p) => some p
  | .ok none => none
  | .error _ => none

/-- The pool's total output on a job list (scanner.go 22-32, sequentialized;
the claims proved over it are order-insensitive). -/
def workerRun (st : List String → StatRes) (git : List String → String) (now : Nat)
    (jobs : List (List String)) : List Project :=
  jobs.filterMap (workerEmit? st git now)

/-- The collector loop (scanner.go 71-79): a record whose path is already in
the seen set is dropped, otherwise it is appended and its path recorded. -/
def collectDedup (seen : List String) : List Project → List Project
  | [] => []
  | p :: ps =>
      if p.path ∈ seen then collectDedup seen ps
      else p :: collectDedup (p.path :: seen) ps

def scanCandidates (t : FsNode) : List (List String) := (walkNode [] t).1

def scanRaw (t : FsNode) (now : Nat) : List Project :=
  workerRun (statOfTree t) (getGitRemoteURLFs t) now (scanCandidates t)

/-- Sequential denotation of `ScanDirectory`'s data flow (scanner.go 15-82):
walk collecting candidates, return the walk error when there is one (the
worker results are discarded, scanner.go 66-68), otherwise dedup the pool
output. -/
def scanDirectory (t : FsNode) (now : Nat) : Except WalkError (List Project) :=
  match (walkNode [] t).2 with
  | some e => .error e
  | none => .ok (collectDedup [] (scanRaw t now))

/-! ### Small-step model of the goroutine pool (scanner.go 15-82)

State of one run of `ScanDirectory` on a tree whose walk raises no error:
the walker/main goroutine (which enqueues candidates in walk order, closes
`jobs`, waits on the `WaitGroup`, closes `results`, then collects), the ten
workers, and the two bounded channels of capacity `workerCount * 4`
(scanner.go 16-18). `emit` gives the record a worker sends for a candidate
(`none` when inspection errs or does not match, scanner.go 27). A worker that
produced a record and has not yet placed it into `results` is `sending`;
`sending` can only advance while the buffer holds fewer than `chanCap`
records, and the collector only runs after `wg.Wait()` has returned
(phase `collecting`), exactly as in the code. -/

def workerCount : Nat := 10

/-- Both channel buffers have capacity `workerCount * 4` (scanner.go 17-18). -/
def chanCap : Nat := workerCount * 4

inductive WStat where
  | idle
  | sending (p : Project)
  | done
deriving DecidableEq

def WStat.isSending : WStat → Bool
  | .sending _ => true
  | _ => false

def WStat.isIdle : WStat → Bool
  | .idle => true
  | _ => false

inductive MPhase where
  | walking
  | waiting
  | collecting
  | finished
deriving DecidableEq

structure ScanState where
  pending : List (List String)
  jobs : List (List String)
  jobsClosed : Bool
  workers : List WStat
  results : List Project
  resultsClosed : Bool
  phase : MPhase
  collected : List Project
  seen : List String
deriving DecidableEq

/-- The legal interleavings: one transition per runnable goroutine action. -/
inductive Step (emit : List String → Option Project) : ScanState → ScanState → Prop where
  | enqueue (d rest jobs jc ws res rc col sn) (hlen : jobs.length < chanCap) :
      Step emit ⟨d :: rest, jobs, jc, ws, res, rc, .walking, col, sn⟩
                ⟨rest, jobs ++ [d], jc, ws, res, rc, .walking, col, sn⟩
  | closeJobs (jobs ws res rc col sn) :
      Step emit ⟨[], jobs, false, ws, res, rc, .walking, col, sn⟩
                ⟨[], jobs, true, ws, res, rc, .waiting, col, sn⟩
  | takeJob (pend d rest jc w1 w2 res rc ph col sn) :
      Step emit ⟨pend, d :: rest, jc, w1 ++ WStat.idle :: w2, res, rc, ph, col, sn⟩
                ⟨pend, rest, jc,
                  w1 ++ (match emit d with
                         | some p => WStat.sending p
                         | none => WStat.idle) :: w2,
                  res, rc, ph, col, sn⟩
  | sendResult (pend jobs jc w1 p w2 res rc ph col sn) (hlen : res.length < chanCap) :
      Step emit ⟨pend, jobs, jc, w1 ++ WStat.sending p :: w2, res, rc, ph, col, sn⟩
                ⟨pend, jobs, jc, w1 ++ WStat.idle :: w2, res ++ [p], rc, ph, col, sn⟩
  | workerExit (pend w1 w2 res rc ph col sn) :
      Step emit ⟨pend, [], true, w1 ++ WStat.idle :: w2, res, rc, ph, col, sn⟩
                ⟨pend, [], true, w1 ++ WStat.done :: w2, res, rc, ph, col, sn⟩
  | closeResults (pend jobs jc ws res col sn) (hall : ∀ w ∈ ws, w = WStat.done) :
      Step emit ⟨pend, jobs, jc, ws, res, false, .waiting, col, sn⟩
                ⟨pend, jobs, jc, ws, res, true, .collecting, col, sn⟩
  | collect (pend jobs jc ws p rest rc col sn) :
      Step emit ⟨pend, jobs, jc, ws, p :: rest, rc, .collecting, col, sn⟩
                ⟨pend, jobs, jc, ws, rest, rc, .collecting,
                  (if p.path ∈ sn then col else col ++ [p]),
                  (if p.path ∈ sn then sn else p.path :: sn)⟩
  | finish (pend jobs jc ws col sn) :
      Step emit ⟨pend, jobs, jc, ws, [], true, .collecting, col, sn⟩
                ⟨pend, jobs, jc, ws, [], true, .finished, col, sn⟩

/-- Some transition is enabled in `s` (for whatever `emit`). -/
def CanStep (s : ScanState) : Prop :=
  (s.phase = MPhase.walking ∧ s.pending ≠ [] ∧ s.jobs.length < chanCap) ∨
  (s.phase = MPhase.walking ∧ s.pending = [] ∧ s.jobsClosed = false) ∨
  (s.jobs ≠ [] ∧ WStat.idle ∈ s.workers) ∨
  (s.results.length < chanCap ∧ ∃ w ∈ s.workers, w.isSending = true) ∨
  (s.jobs = [] ∧ s.jobsClosed = true ∧ WStat.idle ∈ s.workers) ∨
  (s.phase = MPhase.waiting ∧ (∀ w ∈ s.workers, w = WStat.done) ∧ s.resultsClosed = false) ∨
  (s.phase = MPhase.collecting ∧ s.results ≠ []) ∨
  (s.phase = MPhase.collecting ∧ s.results = [] ∧ s.resultsClosed = true)

instance (s : ScanState) : Decidable (CanStep s) := by
  unfold CanStep
  infer_instance

/-! A deterministic scheduler used only to exhibit one legal run. -/

def splitFirst (pred : WStat → Bool) : List WStat → Option (List WStat × WStat × List WStat)
  | [] => none
  | w :: ws =>
      if pred w then some ([], w, ws)
      else
        match splitFirst pred ws with
        | some (a, x, b) => some (w :: a, x, b)
        | none => none

def trySend : ScanState → Option ScanState
  | ⟨pend, jobs, jc, ws, res, rc, ph, col, sn⟩ =>
      if res.length < chanCap then
        match splitFirst WStat.isSending ws with
        | some (a, WStat.sending p, b) =>
            some ⟨pend, jobs, jc, a ++ WStat.idle :: b, res ++ [p], rc, ph, col, sn⟩
        | _ => none
      else none

def tryTake (emit : List String → Option Project) : ScanState → Option ScanState
  | ⟨pend, d :: rest, jc, ws, res, rc, ph, col, sn⟩ =>
      match splitFirst WStat.isIdle ws with
      | some (a, WStat.idle, b) =>
          some ⟨pend, rest, jc,
                a ++ (match emit d with
                      | some p => WStat.sending p
                      | none => WStat.idle) :: b,
                res, rc, ph, col, sn⟩
      | _ => none
  | _ => none

def tryEnqueue : ScanState → Option ScanState
  | ⟨d :: rest, jobs, jc, ws, res, rc, MPhase.walking, col, sn⟩ =>
      if jobs.length < chanCap then
        some ⟨rest, jobs ++ [d], jc, ws, res, rc, MPhase.walking, col, sn⟩
      else none
  | _ => none

def tryCloseJobs : ScanState → Option ScanState
  | ⟨[], jobs, false, ws, res, rc, MPhase.walking, col, sn⟩ =>
      some ⟨[], jobs, true, ws, res, rc, MPhase.waiting, col, sn⟩
  | _ => none

def tryExit : ScanState → Option ScanState
  | ⟨pend, [], true, ws, res, rc, ph, col, sn⟩ =>
      match splitFirst WStat.isIdle ws with
      | some (a, WStat.idle, b) =>
          some ⟨pend, [], true, a ++ WStat.done :: b, res, rc, ph, col, sn⟩
      | _ => none
  | _ => none

def tryCloseResults : ScanState → Option ScanState
  | ⟨pend, jobs, jc, ws, res, false, MPhase.waiting, col, sn⟩ =>
      if ∀ w ∈ ws, w = WStat.done then
        some ⟨pend, jobs, jc, ws, res, true, MPhase.collecting, col, sn⟩
      else none
  | _ => none

def tryCollect : ScanState → Option ScanState
  | ⟨pend, jobs, jc, ws, p :: rest, rc, MPhase.collecting, col, sn⟩ =>
      some ⟨pend, jobs, jc, ws, rest, rc, MPhase.collecting,
            if p.path ∈ sn then col else col ++ [p],
            if p.path ∈ sn then sn else p.path :: sn⟩
  | _ => none

def tryFinish : ScanState → Option ScanState
  | ⟨pend, jobs, jc, ws, [], true, MPhase.collecting, col, sn⟩ =>
      some ⟨pend, jobs, jc, ws, [], true, MPhase.finished, col, sn⟩
  | _ => none

def schedStep (emit : List String → Option Project) (s : ScanState) : Option ScanState :=
  trySend s <|> tryTake emit s <|> tryEnqueue s <|> tryCloseJobs s <|>
    tryExit s <|> tryCloseResults s <|> tryCollect s <|> tryFinish s

def iterSched (emit : List String → Option Project) : Nat → ScanState → ScanState
  | 0, s => s
  | n + 1, s =>
      match schedStep emit s with
      | some s' => iterSched emit n s'
      | none => s

def fsListOf : List FsNode → FsList
  | [] => .nil
  | c :: cs => .cons c (fsListOf cs)

/-- A root with 41 project directories: one more discovered record than the
results buffer (capacity `chanCap = 40`) can hold. -/
def deadTree : FsNode :=
  .dir "r" false (fsListOf ((List.range 41).map
    (fun i => FsNode.dir (toString i) false (.cons (.file "package.json" "") .nil))))

def deadEmit : List String → Option Project :=
  workerEmit? (statOfTree deadTree) (getGitRemoteURLFs deadTree) 0

/-- The state at the top of `ScanDirectory`: nothing enqueued, ten idle
workers, both channels open, the walker about to feed the candidates in walk
order. -/
def initState (t : FsNode) : ScanState :=
  ⟨scanCandidates t, [], false, List.replicate workerCount .idle, [], false, .walking, [], []⟩

def deadFinal : ScanState := iterSched deadEmit 140 (initState deadTree)

/-- A stat oracle for claim C2: testing `d/package.json` hits an I/O error
while `d/go.mod` exists. -/
def errStat : List String → StatRes := fun p =>
  if p = ["d", "package.json"] then .statError
  else if p = ["d", "go.mod"] then .found
  else .notFound

/-- A config whose url-line starts with `url` but is not `url` followed by
`=` (claim C3). -/
def badCfg : String := "[remote \"origin\"]\nurlxyz=A"

/-- A tree whose only child directory fails `os.ReadDir` (claim C4). -/
def errTree : FsNode := .dir "root" false (.cons (.dir "x" true .nil) .nil)

/-- A small healthy tree with one project directory, used by witnesses. -/
def smallTree : FsNode :=
  .dir "root" false (.cons (.dir "a" false (.cons (.file "package.json" "") .nil)) .nil)

/-- The collected result of scanning `smallTree` (used by witnesses). -/
def smallScan : List Project := collectDedup [] (scanRaw smallTree 0)

/-- A stat oracle where only `d/package.json` exists (claim C7's witness). -/
def stPJ : List String → StatRes := fun p =>
  if p = ["d", "package.json"] then .found else .notFound

/-- A stat oracle where no marker exists (claim C7's witness). -/
def stNone : List String → StatRes := fun _ => .notFound

/-- View of an `FsList` as an ordinary list of nodes. -/
def FsList.toList : FsList → List FsNode
  | .nil => []
  | .cons c cs => c :: FsList.toList cs

/-- Entries holding a directory named `package.json` (claim C10's witness). -/
def kindCs1 : FsList := .cons (.dir "package.json" false .nil) .nil

/-- Entries holding a regular file named `.git` (claim C10's witness). -/
def kindCs2 : FsList := .cons (.file ".git" "") .nil

/-- A tree with a marker buried inside a `node_modules` subtree next to a
real project (claim C5's witness). -/
def pruneTree : FsNode :=
  .dir "root" false
    (.cons (.dir "node_modules" false
        (.cons (.dir "d" false (.cons (.file "package.json" "") .nil)) .nil))
      (.cons (.dir "a" false (.cons (.file "go.mod" "") .nil)) .nil))

theorem splitFirst_eq (pred : WStat → Bool) :
    ∀ ws a w b, splitFirst pred ws = some (a, w, b) →
      ws = a ++ w :: b ∧ pred w = true := by
  intro ws
  induction ws with
  | nil => intro a w b h; simp [splitFirst] at h
  | cons x xs ih =>
      intro a w b h
      by_cases hx : pred x
      · simp [splitFirst, hx] at h
        obtain ⟨ha, hw, hb⟩ := h
        subst ha; subst hw; subst hb
        exact ⟨rfl, hx⟩
      · simp only [splitFirst, if_neg hx] at h
        match hr : splitFirst pred xs with
        | none => rw [hr] at h; simp at h
        | some (a', w', b') =>
            rw [hr] at h
            simp only [Option.some.injEq, Prod.mk.injEq] at h
            obtain ⟨ha, hw, hb⟩ := h
            obtain ⟨hxs, hp⟩ := ih a' w' b' hr
            subst hw; subst hb; subst ha
            exact ⟨by simp [hxs], hp⟩

theorem step_canStep {emit : List String → Option Project} {s s' : ScanState}
    (h : Step emit s s') : CanStep s := by
  cases h with
  | enqueue d rest jobs jc ws res rc col sn hlen =>
      exact Or.inl ⟨rfl, by simp, hlen⟩
  | closeJobs jobs ws res rc col sn =>
      exact Or.inr (Or.inl ⟨rfl, rfl, rfl⟩)
  | takeJob pend d rest jc w1 w2 res rc ph col sn =>
      refine Or.inr (Or.inr (Or.inl ⟨by simp, ?_⟩))
      simp [ScanState.workers]
  | sendResult pend jobs jc w1 p w2 res rc ph col sn hlen =>
      refine Or.inr (Or.inr (Or.inr (Or.inl ⟨hlen, WStat.sending p, ?_, rfl⟩)))
      simp [ScanState.workers]
  | workerExit pend w1 w2 res rc ph col sn =>
      refine Or.inr (Or.inr (Or.inr (Or.inr (Or.inl ⟨rfl, rfl, ?_⟩))))
      simp [ScanState.workers]
  | closeResults pend jobs jc ws res col sn hall =>
      exact Or.inr (Or.inr (Or.inr (Or.inr (Or.inr (Or.inl ⟨rfl, hall, rfl⟩)))))
  | collect pend jobs jc ws p rest rc col sn =>
      exact Or.inr (Or.inr (Or.inr (Or.inr (Or.inr (Or.inr (Or.inl ⟨rfl, by simp⟩))))))
  | finish pend jobs jc ws col sn =>
      exact Or.inr (Or.inr (Or.inr (Or.inr (Or.inr (Or.inr (Or.inr ⟨rfl, rfl, rfl⟩))))))

theorem trySend_step (emit : List String → Option Project) :
    ∀ s s', trySend s = some s' → Step emit s s' := by
  intro ⟨pend, jobs, jc, ws, res, rc, ph, col, sn⟩ s' h
  simp only [trySend] at h
  by_cases hlen : res.length < chanCap
  · rw [if_pos hlen] at h
    rcases hsp : splitFirst WStat.isSending ws with _ | ⟨a, w, b⟩
    · rw [hsp] at h; exact absurd h (by simp)
    · rw [hsp] at h
      obtain ⟨hws, hw⟩ := splitFirst_eq _ ws a w b hsp
      cases w with
      | idle => exact absurd h (by simp)
      | done => exact absurd h (by simp)
      | sending p =>
          simp only [Option.some.injEq] at h
          subst hws
          rw [← h]
          exact Step.sendResult pend jobs jc a p b res rc ph col sn hlen
  · rw [if_neg hlen] at h; exact absurd h (by simp)

theorem tryTake_step (emit : List String → Option Project) :
    ∀ s s', tryTake emit s = some s' → Step emit s s' := by
  intro ⟨pend, jobs, jc, ws, res, rc, ph, col, sn⟩ s' h
  cases jobs with
  | nil => exact absurd h (by simp [tryTake])
  | cons d rest =>
      simp only [tryTake] at h
      rcases hsp : splitFirst WStat.isIdle ws with _ | ⟨a, w, b⟩
      · rw [hsp] at h; exact absurd h (by simp)
      · rw [hsp] at h
        obtain ⟨hws, hw⟩ := splitFirst_eq _ ws a w b hsp
        cases w with
        | sending p => exact absurd h (by simp)
        | done => exact absurd h (by simp)
        | idle =>
            simp only [Option.some.injEq] at h
            subst hws
            rw [← h]
            exact Step.takeJob pend d rest jc a b res rc ph col sn

theorem tryEnqueue_step (emit : List String → Option Project) :
    ∀ s s', tryEnqueue s = some s' → Step emit s s' := by
  intro ⟨pend, jobs, jc, ws, res, rc, ph, col, sn⟩ s' h
  cases pend with
  | nil => cases ph <;> exact absurd h (by simp [tryEnqueue])
  | cons d rest =>
      cases ph with
      | waiting => exact absurd h (by simp [tryEnqueue])
      | collecting => exact absurd h (by simp [tryEnqueue])
      | finished => exact absurd h (by simp [tryEnqueue])
      | walking =>
          simp only [tryEnqueue] at h
          by_cases hlen : jobs.length < chanCap
          · rw [if_pos hlen] at h
            simp only [Option.some.injEq] at h
            rw [← h]
            exact Step.enqueue d rest jobs jc ws res rc col sn hlen
          · rw [if_neg hlen] at h; exact absurd h (by simp)

theorem tryCloseJobs_step (emit : List String → Option Project) :
    ∀ s s', tryCloseJobs s = some s' → Step emit s s' := by
  intro ⟨pend, jobs, jc, ws, res, rc, ph, col, sn⟩ s' h
  cases pend with
  | cons d rest => cases ph <;> cases jc <;> exact absurd h (by simp [tryCloseJobs])
  | nil =>
      cases ph with
      | waiting => cases jc <;> exact absurd h (by simp [tryCloseJobs])
      | collecting => cases jc <;> exact absurd h (by simp [tryCloseJobs])
      | finished => cases jc <;> exact absurd h (by simp [tryCloseJobs])
      | walking =>
          cases jc with
          | true => exact absurd h (by simp [tryCloseJobs])
          | false =>
              simp only [tryCloseJobs, Option.some.injEq] at h
              rw [← h]
              exact Step.closeJobs jobs ws res rc col sn

theorem tryExit_step (emit : List String → Option Project) :
    ∀ s s', tryExit s = some s' → Step emit s s' := by
  intro ⟨pend, jobs, jc, ws, res, rc, ph, col, sn⟩ s' h
  cases jobs with
  | cons d rest => cases jc <;> exact absurd h (by simp [tryExit])
  | nil =>
      cases jc with
      | false => exact absurd h (by simp [tryExit])
      | true =>
          simp only [tryExit] at h
          rcases hsp : splitFirst WStat.isIdle ws with _ | ⟨a, w, b⟩
          · rw [hsp] at h; exact absurd h (by simp)
          · rw [hsp] at h
            obtain ⟨hws, hw⟩ := splitFirst_eq _ ws a w b hsp
            cases w with
            | sending p => exact absurd h (by simp)
            | done => exact absurd h (by simp)
            | idle =>
                simp only [Option.some.injEq] at h
                subst hws
                rw [← h]
                exact Step.workerExit pend a b res rc ph col sn

theorem tryCloseResults_step (emit : List String → Option Project) :
    ∀ s s', tryCloseResults s = some s' → Step emit s s' := by
  intro ⟨pend, jobs, jc, ws, res, rc, ph, col, sn⟩ s' h
  cases rc with
  | true => cases ph <;> exact absurd h (by simp [tryCloseResults])
  | false =>
      cases ph with
      | walking => exact absurd h (by simp [tryCloseResults])
      | collecting => exact absurd h (by simp [tryCloseResults])
      | finished => exact absurd h (by simp [tryCloseResults])
      | waiting =>
          simp only [tryCloseResults] at h
          by_cases hall : ∀ w ∈ ws, w = WStat.done
          · rw [if_pos hall] at h
            simp only [Option.some.injEq] at h
            rw [← h]
            exact Step.closeResults pend jobs jc ws res col sn hall
          · rw [if_neg hall] at h; exact absurd h (by simp)

theorem tryCollect_step (emit : List String → Option Project) :
    ∀ s s', tryCollect s = some s' → Step emit s s' := by
  intro ⟨pend, jobs, jc, ws, res, rc, ph, col, sn⟩ s' h
  cases res with
  | nil => cases ph <;> exact absurd h (by simp [tryCollect])
  | cons p rest =>
      cases ph with
      | walking => exact absurd h (by simp [tryCollect])
      | waiting => exact absurd h (by simp [tryCollect])
      | finished => exact absurd h (by simp [tryCollect])
      | collecting =>
          simp only [tryCollect, Option.some.injEq] at h
          rw [← h]
          exact Step.collect pend jobs jc ws p rest rc col sn

theorem tryFinish_step (emit : List String → Option Project) :
    ∀ s s', tryFinish s = some s' → Step emit s s' := by
  intro ⟨pend, jobs, jc, ws, res, rc, ph, col, sn⟩ s' h
  cases res with
  | cons p rest => cases ph <;> cases rc <;> exact absurd h (by simp [tryFinish])
  | nil =>
      cases rc with
      | false => cases ph <;> exact absurd h (by simp [tryFinish])
      | true =>
          cases ph with
          | walking => exact absurd h (by simp [tryFinish])
          | waiting => exact absurd h (by simp [tryFinish])
          | finished => exact absurd h (by simp [tryFinish])
          | collecting =>
              simp only [tryFinish, Option.some.injEq] at h
              rw [← h]
              exact Step.finish pend jobs jc ws col sn

theorem schedStep_step (emit : List String → Option Project) {s s' : ScanState}
    (h : schedStep emit s = some s') : Step emit s s' := by
  unfold schedStep at h
  rcases h1 : trySend s with _ | t
  case some => rw [h1] at h; simp at h; rw [← h]; exact trySend_step emit s t h1
  rw [h1] at h; simp only [Option.none_orElse] at h
  rcases h2 : tryTake emit s with _ | t
  case some => rw [h2] at h; simp at h; rw [← h]; exact tryTake_step emit s t h2
  rw [h2] at h; simp only [Option.none_orElse] at h
  rcases h3 : tryEnqueue s with _ | t
  case some => rw [h3] at h; simp at h; rw [← h]; exact tryEnqueue_step emit s t h3
  rw [h3] at h; simp only [Option.none_orElse] at h
  rcases h4 : tryCloseJobs s with _ | t
  case some => rw [h4] at h; simp at h; rw [← h]; exact tryCloseJobs_step emit s t h4
  rw [h4] at h; simp only [Option.none_orElse] at h
  rcases h5 : tryExit s with _ | t
  case some => rw [h5] at h; simp at h; rw [← h]; exact tryExit_step emit s t h5
  rw [h5] at h; simp only [Option.none_orElse] at h
  rcases h6 : tryCloseResults s with _ | t
  case some => rw [h6] at h; simp at h; rw [← h]; exact tryCloseResults_step emit s t h6
  rw [h6] at h; simp only [Option.none_orElse] at h
  rcases h7 : tryCollect s with _ | t
  case some => rw [h7] at h; simp at h; rw [← h]; exact tryCollect_step emit s t h7
  rw [h7] at h; simp only [Option.none_orElse] at h
  exact tryFinish_step emit s s' h

theorem iterSched_reachable (emit : List String → Option Project) :
    ∀ (n : Nat) (s : ScanState), Relation.ReflTransGen (Step emit) s (iterSched emit n s) := by
  intro n
  induction n with
  | zero => intro s; exact .refl
  | succ n ih =>
      intro s
      rw [iterSched]
      rcases hs : schedStep emit s with _ | s'
      · exact .refl
      · exact Relation.ReflTransGen.head (schedStep_step emit hs) (ih s')

/-! ### The deadlock scenario for claim C1 -/

set_option maxRecDepth 100000

/-- C1: refuted — a counterexample to "a call to ScanDirectory completes for
every finite directory tree". On a tree with 41 project directories the pool
reaches, by legal interleaving steps, a state in which no goroutine can move:
the results buffer holds `chanCap = 40` records, one worker is blocked
sending the 41st, the other nine have exited, and the main goroutine is stuck
in `wg.Wait` (phase `waiting`), because the collector only starts reading the
results channel after `wg.Wait()` returns. The scan never completes. -/
theorem C1_scanDirectory_deadlock :
    Relation.ReflTransGen (Step deadEmit) (initState deadTree) deadFinal ∧
    (∀ s', ¬ Step deadEmit deadFinal s') ∧
    deadFinal.phase = MPhase.waiting ∧
    deadFinal.results.length = chanCap := by
  refine ⟨iterSched_reachable _ _ _, fun s' h => ?_, by decide, by decide⟩
  have hc : ¬ CanStep deadFinal := by decide
  exact hc (step_canStep h)

/-! ### Parser lemmas and claims C2, C3 -/

theorem trimSpace_eq_rdrop (s : List Char) :
    trimSpace s = List.rdropWhile isSpaceCh (List.dropWhile isSpaceCh s) := rfl

theorem trimSpace_idem (s : List Char) : trimSpace (trimSpace s) = trimSpace s := by
  rw [trimSpace_eq_rdrop s, trimSpace_eq_rdrop]
  have h1 : List.dropWhile isSpaceCh (List.rdropWhile isSpaceCh (List.dropWhile isSpaceCh s)) =
      List.rdropWhile isSpaceCh (List.dropWhile isSpaceCh s) := by
    rw [List.dropWhile_eq_self_iff]
    intro hl
    have hpre := List.rdropWhile_prefix isSpaceCh (List.dropWhile isSpaceCh s)
    have hlen : 0 < (List.dropWhile isSpaceCh s).length :=
      lt_of_lt_of_le hl hpre.length_le
    have hget := List.IsPrefix.getElem hpre hl
    simp only [List.get_eq_getElem]
    rw [hget]
    have := List.dropWhile_get_zero_not isSpaceCh s hlen
    simpa using this
  rw [h1, List.rdropWhile_idempotent]

theorem hasStart_iff_take (pat : List Char) :
    ∀ s : List Char, hasStart s pat = true ↔ s.take pat.length = pat := by
  induction pat with
  | nil => intro s; simp [hasStart]
  | cons p ps ih =>
      intro s
      cases s with
      | nil => simp [hasStart]
      | cons c cs =>
          simp only [hasStart, List.length_cons, List.take_succ_cons, List.cons.injEq,
            Bool.and_eq_true, decide_eq_true_eq]
          rw [ih cs]

theorem startsWith_url_iff (line : List Char) :
    startsWithIgnoreSpace (trimSpace line) urlKey = true ↔ (trimSpace line).take 3 = urlKey := by
  rw [startsWithIgnoreSpace, trimSpace_idem]
  have h3 : urlKey.length = 3 := rfl
  rw [hasStart_iff_take urlKey (trimSpace line), h3]

theorem parseLines_eq_amended :
    ∀ (ls : List (List Char)) (b : Bool), parseLines ls b = specScanAmended ls b := by
  intro ls
  induction ls with
  | nil => intro b; rfl
  | cons line rest ih =>
      intro b
      simp only [parseLines, specScanAmended]
      by_cases h1 : trimSpace line = originHeader
      · rw [if_pos h1, if_pos h1]; exact ih true
      · rw [if_neg h1, if_neg h1]
        cases b with
        | false =>
            have hf1 : ¬((false : Bool) = true ∧ isSectionStart (trimSpace line) = true) :=
              fun hc => by simp at hc
            have hf2 : ¬((false : Bool) = true ∧ startsWithIgnoreSpace (trimSpace line) urlKey = true) :=
              fun hc => by simp at hc
            have hf3 : ¬((false : Bool) = true ∧ (trimSpace line).take 3 = urlKey) :=
              fun hc => by simp at hc
            rw [if_neg hf1, if_neg hf2, if_neg hf3]
            by_cases h2 : isSectionStart (trimSpace line) = true
            · rw [if_pos h2]; exact ih false
            · rw [if_neg h2]; exact ih false
        | true =>
            by_cases h2 : isSectionStart (trimSpace line) = true
            · rw [if_pos h2, if_pos (by exact ⟨rfl, h2⟩)]
              exact ih false
            · rw [if_neg h2, if_neg (fun hc => h2 hc.2)]
              by_cases h3 : (trimSpace line).take 3 = urlKey
              · rw [if_pos (show (true : Bool) = true ∧
                        startsWithIgnoreSpace (trimSpace line) urlKey = true from
                      ⟨rfl, (startsWith_url_iff line).mpr h3⟩),
                    if_pos (show (true : Bool) = true ∧ (trimSpace line).take 3 = urlKey from
                      ⟨rfl, h3⟩)]
                cases hidx : indexByte (trimSpace line) '=' with
                | none => exact ih true
                | some idx =>
                    show (if idx + 1 < (trimSpace line).length then
                            trimSpace (List.drop (idx + 1) (trimSpace line))
                          else parseLines rest true) =
                        (if idx + 1 < (trimSpace line).length then
                            trimSpace (List.drop (idx + 1) (trimSpace line))
                          else specScanAmended rest true)
                    by_cases h4 : idx + 1 < (trimSpace line).length
                    · rw [if_pos h4, if_pos h4]
                    · rw [if_neg h4, if_neg h4]; exact ih true
              · rw [if_neg (show ¬((true : Bool) = true ∧
                        startsWithIgnoreSpace (trimSpace line) urlKey = true) from
                      fun hc => h3 ((startsWith_url_iff line).mp hc.2)),
                    if_neg (show ¬((true : Bool) = true ∧ (trimSpace line).take 3 = urlKey) from
                      fun hc => h3 hc.2)]
                exact ih true

/-- C3 counterexample: the code's parser is not the spec's algorithm. On a
config whose url-line's trimmed content starts with `url` but is *not*
`url` followed by `=` (here `urlxyz=A`), the code returns `A` while the
spec's algorithm finds no url-line and yields empty. -/
theorem C3_parser_not_spec :
    getGitRemoteURLPure badCfg ≠ specOriginURL badCfg ∧
    getGitRemoteURLPure badCfg = "A" ∧ specOriginURL badCfg = "" := by
  refine ⟨?_, by decide, by decide⟩
  decide

/-- C3 amended: the parser implements the spec's algorithm with the url-line
test weakened to "trimmed content starts with the three characters `url`" and
with the yield step guarded: a matching line yields only when it contains an
`=` before its last character; otherwise the line is skipped and scanning
continues (so such a line does not return empty immediately). All other steps
(origin-section tracking, section exit on `[`, trim, first-`=` split,
short-circuit return, empty at end of file) are as the spec states. -/
theorem C3_parser_eq_amended_spec (content : String) :
    getGitRemoteURLPure content = specOriginURLAmended content := by
  unfold getGitRemoteURLPure specOriginURLAmended
  rw [parseLines_eq_amended]

/-- C2 counterexample: a directory whose first marker test (`package.json`)
hits an I/O error and whose second marker (`go.mod`) exists. The claim says
inspection continues with the remaining markers and the directory is still
emitted; in the code `inspectDirectory` returns the error at the first marker
(scanner.go 88-89) and the worker emits nothing for this directory. -/
theorem C2_first_marker_error_drops_directory :
    inspectDirectory errStat (fun _ => "") 0 ["d"] = Except.error () ∧
    workerEmit? errStat (fun _ => "") 0 ["d"] = none := by
  constructor
  · rfl
  · rfl

/-- C2 amended: an I/O error while testing a marker of a directory stops the
inspection of that directory — the directory is treated as a non-match and
its remaining markers are not tested — but the error is confined to that
directory: the worker is not aborted and processes the remaining candidates
exactly as it would without the errored one, and the scan is not aborted. -/
theorem C2_marker_error_isolated (st : List String → StatRes)
    (git : List String → String) (now : Nat) (d : List String)
    (ds : List (List String))
    (herr : st (d ++ ["package.json"]) = .statError) :
    inspectDirectory st git now d = Except.error () ∧
    workerRun st git now (d :: ds) = workerRun st git now ds := by
  have h1 : inspectDirectory st git now d = Except.error () := by
    unfold inspectDirectory markers
    simp only [inspectGo, herr, fileExists]
  refine ⟨h1, ?_⟩
  simp only [workerRun, List.filterMap_cons, workerEmit?, h1]

/-- Witness for C2's amended theorem at the concrete oracle `errStat`. -/
theorem C2_marker_error_isolated_witness :
    errStat (["d"] ++ ["package.json"]) = StatRes.statError ∧
    (inspectDirectory errStat (fun _ => "") 0 ["d"] = Except.error () ∧
     workerRun errStat (fun _ => "") 0 [["d"], ["e"]] =
       workerRun errStat (fun _ => "") 0 [["e"]]) :=
  ⟨by decide, C2_marker_error_isolated errStat (fun _ => "") 0 ["d"] [["e"]] (by decide)⟩

/-! ### Claims C4 and C9 -/

/-- C4: a traversal read error is terminal for the scan: whenever the walk
reports an error, `ScanDirectory` returns exactly that error and no result
records (the Go code returns `nil, walkErr` at scanner.go 66-68, discarding
everything the workers produced; the broken branch is never skipped
silently). -/
theorem C4_walk_error_terminal (t : FsNode) (now : Nat) (e : WalkError)
    (h : (walkNode [] t).2 = some e) :
    scanDirectory t now = Except.error e := by
  unfold scanDirectory
  rw [h]

/-- Witness for C4 on a tree whose child directory fails `os.ReadDir`. -/
theorem C4_walk_error_terminal_witness :
    (walkNode [] errTree).2 = some (WalkError.readDirError ["root", "x"]) ∧
    scanDirectory errTree 0 = Except.error (WalkError.readDirError ["root", "x"]) :=
  ⟨by rfl, C4_walk_error_terminal errTree 0 (WalkError.readDirError ["root", "x"]) (by rfl)⟩

/-- C9: a root that is a regular file yields `Except.ok []` — the file is
visited but never enqueued (no candidates), so the result is the same as for
a directory containing no projects: the caller cannot tell the two apart. -/
theorem C9_file_root_empty (nm content other : String) (now : Nat) :
    scanDirectory (FsNode.file nm content) now = Except.ok [] ∧
    scanCandidates (FsNode.file nm content) = [] ∧
    scanDirectory (FsNode.dir other false FsList.nil) now = Except.ok [] := by
  refine ⟨rfl, rfl, ?_⟩
  by_cases hig : other ∈ ignoreSet
  · simp [scanDirectory, walkNode, hig, scanRaw, scanCandidates, workerRun, collectDedup]
  · simp [scanDirectory, walkNode, walkList, hig, scanRaw, scanCandidates, workerRun,
      workerEmit?, inspectDirectory, markers, inspectGo, statOfTree, findNode, findInList,
      fileExists, collectDedup, FsNode.name]

/-! ### Collector lemmas and claim C6 -/

theorem inspectGo_some (st : List String → StatRes) (git : List String → String)
    (now : Nat) (dir : List String) :
    ∀ (ms : List String) (p : Project),
      inspectGo st git now dir ms = Except.ok (some p) → p = mkProject git now dir := by
  intro ms
  induction ms with
  | nil => intro p h; simp [inspectGo] at h
  | cons m ms ih =>
      intro p h
      simp only [inspectGo] at h
      cases hst : fileExists (st (dir ++ [m])) with
      | error e => rw [hst] at h; simp at h
      | ok b =>
          cases b with
          | true => rw [hst] at h; simp at h; exact h.symm
          | false => rw [hst] at h; exact ih p h

theorem workerEmit_some (st : List String → StatRes) (git : List String → String)
    (now : Nat) (d : List String) (q : Project)
    (h : workerEmit? st git now d = some q) : q = mkProject git now d := by
  unfold workerEmit? at h
  cases hi : inspectDirectory st git now d with
  | error e => rw [hi] at h; simp at h
  | ok o =>
      cases o with
      | none => rw [hi] at h; simp at h
      | some p =>
          rw [hi] at h; simp at h
          rw [← h]
          exact inspectGo_some st git now d markers p hi

theorem collectDedup_nodup : ∀ (l : List Project) (seen : List String),
    ((collectDedup seen l).map Project.path).Nodup ∧
      ∀ q ∈ collectDedup seen l, q.path ∉ seen := by
  intro l
  induction l with
  | nil => intro seen; simp [collectDedup]
  | cons p ps ih =>
      intro seen
      by_cases hp : p.path ∈ seen
      · simpa [collectDedup, hp] using ih seen
      · simp only [collectDedup, if_neg hp]
        obtain ⟨h1, h2⟩ := ih (p.path :: seen)
        refine ⟨?_, ?_⟩
        · simp only [List.map_cons, List.nodup_cons]
          constructor
          · intro hc
            obtain ⟨q, hq, hqp⟩ := List.mem_map.mp hc
            exact h2 q hq (by rw [hqp]; exact List.mem_cons_self _ _)
          · exact h1
        · intro q hq
          rcases List.mem_cons.mp hq with h | h
          · rw [h]; exact hp
          · intro hseen; exact h2 q h (List.mem_cons_of_mem _ hseen)

theorem collectDedup_sublist : ∀ (l : List Project) (seen : List String),
    (collectDedup seen l).Sublist l := by
  intro l
  induction l with
  | nil => intro seen; simp [collectDedup]
  | cons p ps ih =>
      intro seen
      by_cases hp : p.path ∈ seen
      · simp only [collectDedup, if_pos hp]
        exact (ih seen).cons p
      · simp only [collectDedup, if_neg hp]
        exact (ih (p.path :: seen)).cons₂ p

theorem collectDedup_covers : ∀ (l : List Project) (seen : List String) (q : Project),
    q ∈ l → q.path ∈ seen ∨ ∃ r ∈ collectDedup seen l, r.path = q.path := by
  intro l
  induction l with
  | nil => intro seen q hq; simp at hq
  | cons p ps ih =>
      intro seen q hq
      by_cases hp : p.path ∈ seen
      · simp only [collectDedup, if_pos hp]
        rcases List.mem_cons.mp hq with h | h
        · left; rw [h]; exact hp
        · exact ih seen q h
      · simp only [collectDedup, if_neg hp]
        rcases List.mem_cons.mp hq with h | h
        · right; exact ⟨p, List.mem_cons_self _ _, by rw [h]⟩
        · rcases ih (p.path :: seen) q h with hin | ⟨r, hr, hrp⟩
          · rcases List.mem_cons.mp hin with he | he
            · right; exact ⟨p, List.mem_cons_self _ _, he.symm⟩
            · left; exact he
          · right; exact ⟨r, List.mem_cons_of_mem _ hr, hrp⟩

theorem scanDirectory_ok (t : FsNode) (now : Nat) (ps : List Project)
    (h : scanDirectory t now = Except.ok ps) :
    ps = collectDedup [] (scanRaw t now) := by
  unfold scanDirectory at h
  cases hw : (walkNode [] t).2 with
  | some e => rw [hw] at h; simp at h
  | none => rw [hw] at h; simp at h; exact h.symm

/-- C6: within one successful scan result, `path` is a unique key: no two
returned records share a path; the result is a sublist of the pool output (a
record whose path was already collected is silently dropped, nothing is
reported as an error), and every produced path is represented by the first
collected record that carries it. -/
theorem C6_path_unique (t : FsNode) (now : Nat) (ps : List Project)
    (h : scanDirectory t now = Except.ok ps) :
    (ps.map Project.path).Nodup ∧ ps.Sublist (scanRaw t now) ∧
      ∀ q ∈ scanRaw t now, ∃ r ∈ ps, r.path = q.path := by
  have hps := scanDirectory_ok t now ps h
  subst hps
  refine ⟨(collectDedup_nodup _ []).1, collectDedup_sublist _ [], ?_⟩
  intro q hq
  rcases collectDedup_covers (scanRaw t now) [] q hq with hin | hex
  · simp at hin
  · exact hex

/-- Witness for C6 on the one-project tree `smallTree`. -/
theorem C6_path_unique_witness :
    (smallScan.map Project.path).Nodup ∧ smallScan.Sublist (scanRaw smallTree 0) ∧
      ∃ r ∈ smallScan,
        r.path = (mkProject (getGitRemoteURLFs smallTree) 0 ["root", "a"]).path :=
  ⟨(C6_path_unique smallTree 0 smallScan rfl).1,
   (C6_path_unique smallTree 0 smallScan rfl).2.1,
   (C6_path_unique smallTree 0 smallScan rfl).2.2
     (mkProject (getGitRemoteURLFs smallTree) 0 ["root", "a"]) (by decide)⟩

/-! ### Walk lemmas and claims C5, C8 -/

mutual
theorem walkNode_no_ignored : ∀ (p : List String) (n : FsNode),
    (∀ s ∈ p, s ∉ ignoreSet) → ∀ c ∈ (walkNode p n).1, ∀ s ∈ c, s ∉ ignoreSet
  | p, .file nm ct, hp => by simp [walkNode]
  | p, .dir nm re cs, hp => by
      by_cases hig : nm ∈ ignoreSet
      · simp [walkNode, hig]
      · have hp' : ∀ s ∈ p ++ [nm], s ∉ ignoreSet := by
          intro s hs
          rcases List.mem_append.mp hs with h | h
          · exact hp s h
          · simp at h; rw [h]; exact hig
        cases re with
        | true =>
            intro c hc s hs
            simp [walkNode, hig] at hc
            rw [hc] at hs
            exact hp' s hs
        | false =>
            intro c hc s hs
            simp only [walkNode, if_neg hig, Bool.false_eq_true, if_false] at hc
            rcases List.mem_cons.mp hc with h | h
            · rw [h] at hs; exact hp' s hs
            · exact walkList_no_ignored (p ++ [nm]) cs hp' c h s hs

theorem walkList_no_ignored : ∀ (p : List String) (cs : FsList),
    (∀ s ∈ p, s ∉ ignoreSet) → ∀ c ∈ (walkList p cs).1, ∀ s ∈ c, s ∉ ignoreSet
  | p, .nil, hp => by simp [walkList]
  | p, .cons c0 cs, hp => by
      intro c hc s hs
      simp only [walkList] at hc
      rcases hw : (walkNode p c0).2 with _ | e
      · rw [hw] at hc
        simp at hc
        rcases hc with h | h
        · exact walkNode_no_ignored p c0 hp c h s hs
        · exact walkList_no_ignored p cs hp c h s hs
      · rw [hw] at hc
        simp at hc
        exact walkNode_no_ignored p c0 hp c hc s hs
end

mutual
theorem walkNode_shape : ∀ (p : List String) (n : FsNode) (c : List String),
    c ∈ (walkNode p n).1 → ∃ r, c = p ++ FsNode.name n :: r
  | p, .file nm ct, c => by simp [walkNode]
  | p, .dir nm re cs, c => by
      intro hc
      by_cases hig : nm ∈ ignoreSet
      · simp [walkNode, hig] at hc
      · cases re with
        | true =>
            simp [walkNode, hig] at hc
            exact ⟨[], by simp [hc, FsNode.name]⟩
        | false =>
            simp only [walkNode, if_neg hig, Bool.false_eq_true, if_false] at hc
            rcases List.mem_cons.mp hc with h | h
            · exact ⟨[], by simp [h, FsNode.name]⟩
            · obtain ⟨nm2, r2, hr⟩ := walkList_shape (p ++ [nm]) cs c h
              exact ⟨nm2 :: r2, by simp [hr, FsNode.name]⟩

theorem walkList_shape : ∀ (p : List String) (cs : FsList) (c : List String),
    c ∈ (walkList p cs).1 → ∃ nm r, c = p ++ nm :: r
  | p, .nil, c => by simp [walkList]
  | p, .cons c0 cs, c => by
      intro hc
      simp only [walkList] at hc
      rcases hw : (walkNode p c0).2 with _ | e
      · rw [hw] at hc
        simp at hc
        rcases hc with h | h
        · obtain ⟨r, hr⟩ := walkNode_shape p c0 c h
          exact ⟨FsNode.name c0, r, hr⟩
        · exact walkList_shape p cs c h
      · rw [hw] at hc
        simp at hc
        obtain ⟨r, hr⟩ := walkNode_shape p c0 c hc
        exact ⟨FsNode.name c0, r, hr⟩
end

theorem walkList_prune (p : List String) (cn : String) (cre : Bool) (ccs : FsList)
    (cs : FsList) (hig : cn ∈ ignoreSet) :
    walkList p (.cons (.dir cn cre ccs) cs) = walkList p cs := by
  simp [walkList, walkNode, if_pos hig]

theorem walkNode_prune (p : List String) (nm : String) (re : Bool) (cn : String)
    (cre : Bool) (ccs cs : FsList) (hig : cn ∈ ignoreSet) :
    walkNode p (.dir nm re (.cons (.dir cn cre ccs) cs)) = walkNode p (.dir nm re cs) := by
  simp only [walkNode]
  rw [walkList_prune _ _ _ _ _ hig]

theorem scanRaw_mem (t : FsNode) (now : Nat) (q : Project) (hq : q ∈ scanRaw t now) :
    ∃ c ∈ scanCandidates t, q = mkProject (getGitRemoteURLFs t) now c := by
  unfold scanRaw workerRun at hq
  obtain ⟨c, hc, he⟩ := List.mem_filterMap.mp hq
  exact ⟨c, hc, workerEmit_some _ _ _ _ _ he⟩

/-- C5: the walker prunes the ignore set: (1) no enqueued candidate path
passes through a directory whose name is in the ignore set; (2) every record
of a successful scan lives at such a candidate path — so a marker anywhere
inside an ignored subtree yields no record; (3) removing an ignored-named
child directory (whatever it contains) from any directory leaves the whole
walk — candidates and error — unchanged: the ignored directory is no error
and its siblings are traversed exactly as before. -/
theorem C5_pruning (t : FsNode) (now : Nat) :
    (∀ c ∈ scanCandidates t, ∀ s ∈ c, s ∉ ignoreSet) ∧
    (∀ ps, scanDirectory t now = Except.ok ps →
        ∀ q ∈ ps, ∃ c ∈ scanCandidates t,
          q.path = pathString c ∧ ∀ s ∈ c, s ∉ ignoreSet) ∧
    (∀ (p : List String) (nm : String) (re : Bool) (cn : String) (cre : Bool)
        (ccs cs : FsList), cn ∈ ignoreSet →
        walkNode p (.dir nm re (.cons (.dir cn cre ccs) cs)) =
          walkNode p (.dir nm re cs)) := by
  refine ⟨walkNode_no_ignored [] t (by simp), ?_, ?_⟩
  · intro ps h q hqs
    have hps := scanDirectory_ok t now ps h
    subst hps
    have hq : q ∈ scanRaw t now := (collectDedup_sublist _ []).subset hqs
    obtain ⟨c, hc, hqe⟩ := scanRaw_mem t now q hq
    exact ⟨c, hc, by rw [hqe]; rfl, walkNode_no_ignored [] t (by simp) c hc⟩
  · intro p nm re cn cre ccs cs hig
    exact walkNode_prune p nm re cn cre ccs cs hig

/-- Witness for C5 on a tree with a marker buried under `node_modules`. -/
theorem C5_pruning_witness :
    (∃ c ∈ scanCandidates pruneTree,
        (mkProject (getGitRemoteURLFs pruneTree) 0 ["root", "a"]).path = pathString c ∧
        ∀ s ∈ c, s ∉ ignoreSet) ∧
    walkNode [] (FsNode.dir "r" false
        (.cons (FsNode.dir "node_modules" false
          (.cons (FsNode.file "package.json" "") FsList.nil)) FsList.nil)) =
      walkNode [] (FsNode.dir "r" false FsList.nil) :=
  ⟨(C5_pruning pruneTree 0).2.1 _ rfl
     (mkProject (getGitRemoteURLFs pruneTree) 0 ["root", "a"]) (by decide),
   (C5_pruning pruneTree 0).2.2 [] "r" false "node_modules" false
     (.cons (FsNode.file "package.json" "") FsList.nil) FsList.nil (by decide)⟩

theorem asString_ne_empty (l : List Char) (h : l ≠ []) : l.asString ≠ "" := by
  intro hc
  apply h
  have h2 := congrArg String.data hc
  simpa [List.asString] using h2

theorem baseName_ne_empty (p : String) : baseName p ≠ "" := by
  unfold baseName baseNameCh
  by_cases h0 : p.toList = []
  · rw [if_pos h0]; exact asString_ne_empty _ (by simp)
  · rw [if_neg h0]
    by_cases h2 : lastComponent (stripTrailingSep p.toList) = []
    · rw [if_pos h2]; exact asString_ne_empty _ (by simp)
    · rw [if_neg h2]; exact asString_ne_empty _ h2

theorem pathString_cons_ne_empty (n : String) (r : List String) (hn : n ≠ "") :
    pathString (n :: r) ≠ "" := by
  cases r with
  | nil => simpa [pathString] using hn
  | cons x xs =>
      simp only [pathString]
      intro hc
      have h2 := congrArg String.length hc
      simp [String.length_append] at h2
      exact absurd h2.1.2 (by decide)

/-- C8: on any successful scan from a root with a nonempty path, every emitted
record has a nonempty `name` (it is `filepath.Base` of the record's path,
which is never empty) and a nonempty `path` (the
root path, or the root path extended by visited directory names). -/
theorem C8_name_path_nonempty (t : FsNode) (now : Nat) (ps : List Project)
    (hroot : FsNode.name t ≠ "") (h : scanDirectory t now = Except.ok ps) :
    ∀ q ∈ ps, q.name ≠ "" ∧ q.path ≠ "" := by
  intro q hqs
  have hps := scanDirectory_ok t now ps h
  subst hps
  have hq : q ∈ scanRaw t now := (collectDedup_sublist _ []).subset hqs
  obtain ⟨c, hc, hqe⟩ := scanRaw_mem t now q hq
  obtain ⟨r, hr⟩ := walkNode_shape [] t c hc
  simp only [List.nil_append] at hr
  constructor
  · rw [hqe]
    exact baseName_ne_empty _
  · rw [hqe]
    show pathString c ≠ ""
    rw [hr]
    exact pathString_cons_ne_empty _ _ hroot

/-- Witness for C8 on `smallTree`. -/
theorem C8_name_path_nonempty_witness :
    (mkProject (getGitRemoteURLFs smallTree) 0 ["root", "a"]).name ≠ "" ∧
    (mkProject (getGitRemoteURLFs smallTree) 0 ["root", "a"]).path ≠ "" :=
  C8_name_path_nonempty smallTree 0 smallScan (by decide) rfl
    (mkProject (getGitRemoteURLFs smallTree) 0 ["root", "a"]) (by decide)

/-! ### Claims C7 and C10 -/

/-- C7: a directory is tested against the markers in the fixed order
package.json, go.mod, .git, stopping at the first match. The constructed
record has name = `filepath.Base` of the directory path, path = the
directory, status = "active" and last_touched = the discovery stamp. A match
on the first marker is emitted whatever the later stats would say
(short-circuit); any match (with error-free stats) yields exactly the
constructed record; a directory matching no marker emits nothing and raises
no error. -/
theorem C7_inspect_first_match (st : List String → StatRes)
    (git : List String → String) (now : Nat) (dir : List String) :
    (mkProject git now dir).name = baseName (pathString dir) ∧
    (mkProject git now dir).path = pathString dir ∧
    (mkProject git now dir).status = "active" ∧
    (mkProject git now dir).lastOpened = now ∧
    (st (dir ++ ["package.json"]) = .found →
        inspectDirectory st git now dir = Except.ok (some (mkProject git now dir))) ∧
    ((∀ m ∈ markers, st (dir ++ [m]) ≠ .statError) →
        (∃ m ∈ markers, st (dir ++ [m]) = .found) →
        inspectDirectory st git now dir = Except.ok (some (mkProject git now dir))) ∧
    ((∀ m ∈ markers, st (dir ++ [m]) = .notFound) →
        inspectDirectory st git now dir = Except.ok none) := by
  refine ⟨rfl, rfl, rfl, rfl, ?_, ?_, ?_⟩
  · intro h1
    simp [inspectDirectory, markers, inspectGo, h1, fileExists]
  · intro hne hex
    cases hv1 : st (dir ++ ["package.json"]) with
    | found => simp [inspectDirectory, markers, inspectGo, hv1, fileExists]
    | statError => exact absurd hv1 (hne _ (by simp [markers]))
    | notFound =>
        cases hv2 : st (dir ++ ["go.mod"]) with
        | found => simp [inspectDirectory, markers, inspectGo, hv1, hv2, fileExists]
        | statError => exact absurd hv2 (hne _ (by simp [markers]))
        | notFound =>
            cases hv3 : st (dir ++ [".git"]) with
            | found => simp [inspectDirectory, markers, inspectGo, hv1, hv2, hv3, fileExists]
            | statError => exact absurd hv3 (hne _ (by simp [markers]))
            | notFound =>
                obtain ⟨m, hm, hfound⟩ := hex
                simp [markers] at hm
                rcases hm with h | h | h
                · rw [h] at hfound; rw [hv1] at hfound; simp at hfound
                · rw [h] at hfound; rw [hv2] at hfound; simp at hfound
                · rw [h] at hfound; rw [hv3] at hfound; simp at hfound
  · intro hall
    have h1 := hall _ (show "package.json" ∈ markers by simp [markers])
    have h2 := hall _ (show "go.mod" ∈ markers by simp [markers])
    have h3 := hall _ (show ".git" ∈ markers by simp [markers])
    simp [inspectDirectory, markers, inspectGo, h1, h2, h3, fileExists]

/-- Witness for C7: a lone `package.json` matches; no markers emit nothing. -/
theorem C7_inspect_first_match_witness :
    inspectDirectory stPJ (fun _ => "") 0 ["d"] =
        Except.ok (some (mkProject (fun _ => "") 0 ["d"])) ∧
    inspectDirectory stNone (fun _ => "") 0 ["d"] = Except.ok none :=
  ⟨(C7_inspect_first_match stPJ (fun _ => "") 0 ["d"]).2.2.2.2.1 (by decide),
   (C7_inspect_first_match stNone (fun _ => "") 0 ["d"]).2.2.2.2.2.2
     (fun m hm => rfl)⟩

theorem findInList_found : ∀ (cs : FsList) (s : String),
    (∃ c ∈ FsList.toList cs, FsNode.name c = s) → (findInList cs s []).isSome = true
  | .nil, s, h => by simp [FsList.toList] at h
  | .cons c0 cs, s, h => by
      simp only [findInList]
      by_cases he : FsNode.name c0 = s
      · rw [if_pos he]
        simp [findNode]
      · rw [if_neg he]
        apply findInList_found cs s
        obtain ⟨c, hc, hn⟩ := h
        simp only [FsList.toList, List.mem_cons] at hc
        rcases hc with h0 | h0
        · exact absurd (by rw [← h0]; exact hn) he
        · exact ⟨c, h0, hn⟩

theorem findInList_notFound : ∀ (cs : FsList) (s : String),
    (∀ c ∈ FsList.toList cs, FsNode.name c ≠ s) → findInList cs s [] = none
  | .nil, _, _ => rfl
  | .cons c0 cs, s, h => by
      simp only [findInList]
      rw [if_neg (h c0 (by simp [FsList.toList]))]
      exact findInList_notFound cs s (fun c hc => h c (by simp [FsList.toList, hc]))

/-- C10: marker testing uses `os.Stat` and therefore checks only that an
entry with the marker's name exists — not its kind. A directory named
`package.json` among a directory's entries makes that directory a project;
so does a regular file named `.git` (as in a git worktree) when no entry
carries one of the two earlier marker names. -/
theorem C10_marker_kind_insensitive (nm : String) (re : Bool) (cs : FsList)
    (git : List String → String) (now : Nat) :
    ((∃ sre sub, FsNode.dir "package.json" sre sub ∈ FsList.toList cs) →
        inspectDirectory (statOfTree (.dir nm re cs)) git now [nm] =
          Except.ok (some (mkProject git now [nm]))) ∧
    ((∀ c ∈ FsList.toList cs,
          FsNode.name c ≠ "package.json" ∧ FsNode.name c ≠ "go.mod") →
        (∃ content, FsNode.file ".git" content ∈ FsList.toList cs) →
        inspectDirectory (statOfTree (.dir nm re cs)) git now [nm] =
          Except.ok (some (mkProject git now [nm]))) := by
  constructor
  · intro hmem
    obtain ⟨sre, sub, hmem⟩ := hmem
    have hfind : (findInList cs "package.json" []).isSome = true :=
      findInList_found cs _ ⟨_, hmem, rfl⟩
    have hst : statOfTree (.dir nm re cs) [nm, "package.json"] = .found := by
      simp [statOfTree, FsNode.name, findNode, hfind]
    simp [inspectDirectory, markers, inspectGo, hst, fileExists]
  · intro hno hmem
    obtain ⟨content, hmem⟩ := hmem
    have h1 : findInList cs "package.json" [] = none :=
      findInList_notFound cs _ (fun c hc => (hno c hc).1)
    have h2 : findInList cs "go.mod" [] = none :=
      findInList_notFound cs _ (fun c hc => (hno c hc).2)
    have h3 : (findInList cs ".git" []).isSome = true :=
      findInList_found cs _ ⟨_, hmem, rfl⟩
    have hst1 : statOfTree (.dir nm re cs) [nm, "package.json"] = .notFound := by
      simp [statOfTree, FsNode.name, findNode, h1]
    have hst2 : statOfTree (.dir nm re cs) [nm, "go.mod"] = .notFound := by
      simp [statOfTree, FsNode.name, findNode, h2]
    have hst3 : statOfTree (.dir nm re cs) [nm, ".git"] = .found := by
      simp [statOfTree, FsNode.name, findNode, h3]
    simp [inspectDirectory, markers, inspectGo, hst1, hst2, hst3, fileExists]

/-- Witness for C10: a directory named `package.json`, and a file named
`.git`, each make their parent a project. -/
theorem C10_marker_kind_insensitive_witness :
    inspectDirectory (statOfTree (.dir "w" false kindCs1)) (fun _ => "") 0 ["w"] =
        Except.ok (some (mkProject (fun _ => "") 0 ["w"])) ∧
    inspectDirectory (statOfTree (.dir "w" false kindCs2)) (fun _ => "") 0 ["w"] =
        Except.ok (some (mkProject (fun _ => "") 0 ["w"])) :=
  ⟨(C10_marker_kind_insensitive "w" false kindCs1 (fun _ => "") 0).1
     ⟨false, .nil, by simp [kindCs1, FsList.toList]⟩,
   (C10_marker_kind_insensitive "w" false kindCs2 (fun _ => "") 0).2
     (by intro c hc
         simp only [kindCs2, FsList.toList, List.mem_cons, List.not_mem_nil, or_false] at hc
         rw [hc]
         exact ⟨by decide, by decide⟩)
     ⟨"", by simp [kindCs2, FsList.toList]⟩⟩

end DevBase
